import Mathlib

/-! # file-server: path registry, directory walk and request routing

A shallow embedding of `main.go` and `models/models.go`.

* Go strings are `String`; the `strings` helpers are written on the character list.
* A Go `map[string]V` is an association list with pairwise distinct keys (`GoMap`);
  `for ... range m` visits the entries in an unspecified order, so every handler that
  ranges over a map takes the visiting order as an argument and the theorems quantify
  over all permutations of the entries.
* `filepath.Abs`, `filepath.Walk` and `unicode.ToLower` belong to the Go runtime; their
  outcomes are inputs of the model (`abs`, `walk`, `lower` below).
* What a handler does with the `http.ResponseWriter` is recorded as a `Response` value.
-/

namespace FileServer

/-! ## models/models.go -/

/-- Go `models.Video`. -/
structure Video where
  Name : String
  Path : String
  FilePath : String
deriving DecidableEq, Repr

/-- Go `models.Folder`. -/
structure Folder where
  Name : String
  Path : String
deriving DecidableEq, Repr

/-- Go `models.PublicVideo` (json tags `name`, `path`). -/
structure PublicVideo where
  Name : String
  Path : String
deriving DecidableEq, Repr

/-- Go `models.PublicVideoFolder` (json tags `name`, `videos`). -/
structure PublicVideoFolder where
  Name : String
  Videos : List PublicVideo
deriving DecidableEq, Repr

/-- Go `models.VideoURLListResponse` (json tag `folders`). -/
structure VideoURLListResponse where
  Folders : List PublicVideoFolder
deriving DecidableEq, Repr

/-! ## Go runtime helpers used by main.go -/

/-- Go `strings.HasSuffix(s, suffix)`. -/
def hasSuffix (s suffix : String) : Bool :=
  suffix.data.isSuffixOf s.data

/-- Go `strings.TrimSuffix(s, suffix)`: drops the suffix when it is there. -/
def trimSuffix (s suffix : String) : String :=
  if hasSuffix s suffix then ⟨s.data.take (s.data.length - suffix.data.length)⟩ else s

/-- Go `strings.ToLower(s)`: every rune is mapped by `unicode.ToLower`, here `lower`. -/
def toLower (lower : Char → Char) (s : String) : String :=
  ⟨s.data.map lower⟩

/-- The restriction of `unicode.ToLower` to ASCII: `A`..`Z` go to `a`..`z`, every other
character is left as it is. Used for the concrete file names of the examples. -/
def asciiLower (c : Char) : Char :=
  if 65 ≤ c.toNat ∧ c.toNat ≤ 90 then Char.ofNat (c.toNat + 32) else c

/-- Go `fmt.Sprintf("%d", n)` for a non-negative `int`. -/
def sprintD (n : Nat) : String :=
  Nat.repr n

/-- Go `fmt.Sprintf("/dir%d/", n)`. -/
def dirPfx (n : Nat) : String :=
  "/dir" ++ sprintD n ++ "/"

/-! ## isVideo and contains -/

/-- Go `isVideo(filename, extensions)`. -/
def isVideo (lower : Char → Char) (filename : String) : List String → Bool
  | [] => false
  | ext :: rest =>
    if hasSuffix (toLower lower filename) ext then true else isVideo lower filename rest

/-- Go `contains(slice, target)`. -/
def contains : List String → String → Bool
  | [], _ => false
  | str :: rest, target => if str = target then true else contains rest target

/-- The default extension list of `main`. -/
def defaultExtensions : List String :=
  [".mp4", ".avi", ".mkv", ".mov", ".webm"]

/-- The extension list `main` hands to `videos`: the defaults followed by the
operator's entries (already split at the commas and trimmed), unchanged. -/
def videoExtensions (fileExtensions : List String) : List String :=
  fileExtensions.foldl (fun acc fileExtension => acc ++ [fileExtension]) defaultExtensions

/-! ## Go maps -/

/-- A Go `map[string]V`: the entries, with pairwise distinct keys. -/
abbrev GoMap (V : Type) := List (String × V)

/-- The comma-ok lookup `v, ok := m[k]`. -/
def mapLookup {V : Type} : GoMap V → String → Option V
  | [], _ => none
  | (k, v) :: rest, key => if k = key then some v else mapLookup rest key

/-- The assignment `m[k] = v`: overwrites the entry of an existing key, adds one otherwise. -/
def mapSet {V : Type} : GoMap V → String → V → GoMap V
  | [], key, val => [(key, val)]
  | (k, v) :: rest, key, val =>
    if k = key then (k, val) :: rest else (k, v) :: mapSet rest key val

/-- The read `m[k]` of a `map[string][]T`: the zero value (nil slice) for a missing key. -/
def mapGet {T : Type} (m : GoMap (List T)) (key : String) : List T :=
  (mapLookup m key).getD []

/-- The keys of a map. -/
def mapKeys {V : Type} (m : GoMap V) : List String :=
  m.map Prod.fst

/-! ## Responses -/

/-- What a handler does with the response writer. -/
inductive Response where
  /-- `welcome.html` executed with the folder map (all mode, path `/`). -/
  | welcomeFolders (data : GoMap Folder)
  /-- `welcome.html` executed with the video map (videos mode, path `/`). -/
  | welcomeVideos (data : GoMap (List Video))
  /-- `videos.html` executed with the video list of one prefix. -/
  | videoListing (urls : List Video)
  /-- `http.ServeFile(w, r, name)`. -/
  | serveFile (name : String)
  /-- `http.Redirect(w, r, url, code)`. -/
  | redirect (url : String) (code : Nat)
  /-- `http.NotFound(w, r)`: status 404. -/
  | notFound
  /-- The body written by the encoder, with the `Content-Type` header set before. -/
  | json (contentType : String) (body : String)
  /-- The handler returned without touching the response writer; `net/http` then
  answers with status 200 and an empty body. -/
  | nothingWritten
deriving DecidableEq, Repr

/-- Go `http.StatusMovedPermanently`. -/
def statusMovedPermanently : Nat := 301

/-! ## all -/

/-- The registry loop of `all`: `i` is the loop index, `abs i dir` the outcome of the
call `filepath.Abs(dir)` made in iteration `i` (`none` for an error). -/
def allLoop (abs : Nat → String → Option String) :
    Nat → List String → GoMap Folder → GoMap Folder
  | _, [], folderURLs => folderURLs
  | i, dir :: rest, folderURLs =>
    match abs i dir with
    | none => allLoop abs (i + 1) rest folderURLs
    | some absDir =>
      let pfx := dirPfx (i + 1)
      allLoop abs (i + 1) rest (mapSet folderURLs pfx { Name := pfx, Path := absDir })

/-- The map `folderURLs` built by `all(directories, ...)`. -/
def all (abs : Nat → String → Option String) (directories : List String) : GoMap Folder :=
  allLoop abs 0 directories []

/-- The `for _, folder := range folderURLs` loop of the `/` handler of `all`, over the
entries in the order the range visits them. -/
def allScan (path : String) : List (String × Folder) → Response
  | [] => Response.nothingWritten
  | (_, folder) :: rest =>
    if path = folder.Name then Response.serveFile folder.Path
    else if path = trimSuffix folder.Name "/" then
      Response.redirect folder.Name statusMovedPermanently
    else allScan path rest

/-- The `/` handler registered by `all`; `order` is the order in which the range loop
visits `folderURLs`. -/
def allHandler (folderURLs : GoMap Folder) (order : List (String × Folder))
    (path : String) : Response :=
  if path = "/" then Response.welcomeFolders folderURLs else allScan path order

/-! ## videos -/

/-- Go `os.FileInfo`, as far as the walk callback reads it. -/
structure FileInfo where
  name : String
  isDir : Bool
deriving DecidableEq, Repr

/-- One call of the walk callback: the arguments `(path, info, err)` that
`filepath.Walk` passes. When `err` is set the callback does not read `info`. -/
structure Visit where
  path : String
  info : FileInfo
  err : Option String
deriving DecidableEq, Repr

/-- The state the walk callback closes over: `videoURLs` and `videoCounter`. -/
structure WalkState where
  videoURLs : GoMap (List Video)
  videoCounter : Nat
deriving DecidableEq, Repr

/-- The callback `videos` passes to `filepath.Walk` for the root with prefix `pfx`:
the new state and the returned error. -/
def walkFn (lower : Char → Char) (extensions : List String) (pfx : String)
    (st : WalkState) (v : Visit) : WalkState × Option String :=
  match v.err with
  | some e => (st, some e)
  | none =>
    if !v.info.isDir && isVideo lower v.info.name extensions then
      let aliasPath := "video" ++ sprintD st.videoCounter
      ({ videoURLs := mapSet st.videoURLs pfx
            (mapGet st.videoURLs pfx ++
              [{ Name := v.info.name, Path := pfx ++ aliasPath, FilePath := v.path }]),
         videoCounter := st.videoCounter + 1 }, none)
    else (st, none)

/-- Go `filepath.Walk(root, fn)`, seen from the callback: the nodes of the tree are
presented one after the other, and the walk ends with the first error the callback
returns (the callback of `videos` never returns `SkipDir`). -/
def filepathWalk (fn : WalkState → Visit → WalkState × Option String) :
    List Visit → WalkState → WalkState × Option String
  | [], st => (st, none)
  | v :: rest, st =>
    match fn st v with
    | (st', some e) => (st', some e)
    | (st', none) => filepathWalk fn rest st'

/-- The outcomes of the runtime calls made by `videos`: `abs i dir` is the result of
`filepath.Abs(dir)` in iteration `i`, `walk i absDir` the sequence of callback
arguments `filepath.Walk(absDir, ...)` produces in iteration `i` when it is not stopped,
and `lower` is `unicode.ToLower`. -/
structure Env where
  abs : Nat → String → Option String
  walk : Nat → String → List Visit
  lower : Char → Char

/-- The registry loop of `videos`: `i` is the position in `directories`, `counter` the
variable of the same name. -/
def videosLoop (env : Env) (extensions : List String) :
    Nat → Nat → List String → GoMap (List Video) → GoMap (List Video)
  | _, _, [], videoURLs => videoURLs
  | i, counter, dir :: rest, videoURLs =>
    match env.abs i dir with
    | none => videosLoop env extensions (i + 1) counter rest videoURLs
    | some absDir =>
      let pfx := dirPfx counter
      let r := filepathWalk (walkFn env.lower extensions pfx) (env.walk i absDir)
        { videoURLs := videoURLs, videoCounter := 1 }
      videosLoop env extensions (i + 1) (counter + 1) rest r.1.videoURLs

/-- The map `videoURLs` built by `videos(directories, ..., extensions)`. -/
def videos (env : Env) (directories : List String) (extensions : List String) :
    GoMap (List Video) :=
  videosLoop env extensions 0 1 directories []

/-- The first range loop of the `/` handler of `videos` (prefix and redirect);
`none` when the loop ends without a response. -/
def videosScanDirs (path : String) : List (String × List Video) → Option Response
  | [] => none
  | (dirURL, urls) :: rest =>
    if path = dirURL then some (Response.videoListing urls)
    else if path = trimSuffix dirURL "/" then
      some (Response.redirect dirURL statusMovedPermanently)
    else videosScanDirs path rest

/-- The inner loop `for _, video := range videos` of the second range loop. -/
def videosScanList (path : String) : List Video → Option Response
  | [] => none
  | video :: rest =>
    if path = video.Path then some (Response.serveFile video.FilePath)
    else videosScanList path rest

/-- The second range loop of the `/` handler of `videos` (alias paths). -/
def videosScanFiles (path : String) : List (String × List Video) → Option Response
  | [] => none
  | (_, vids) :: rest =>
    match videosScanList path vids with
    | some r => some r
    | none => videosScanFiles path rest

/-- The `/` handler registered by `videos`; `order1` and `order2` are the orders in
which its two range loops visit `videoURLs`. -/
def videosHandler (videoURLs : GoMap (List Video))
    (order1 order2 : List (String × List Video)) (path : String) : Response :=
  if path = "/" then Response.welcomeVideos videoURLs
  else
    match videosScanDirs path order1 with
    | some r => r
    | none =>
      match videosScanFiles path order2 with
      | some r => r
      | none => Response.notFound

/-! ## The /videourls handler and its JSON encoding -/

/-- The table `hex` of `encoding/json`. -/
def hexDigit (n : Nat) : Char :=
  "0123456789abcdef".data.getD n (Char.ofNat 48)

/-- How the string encoder of `encoding/json` (HTML escaping on, the default of
`json.NewEncoder`) writes one character: quote and backslash get a backslash, the
control characters 8, 12, 10, 13, 9 their short form (8 and 12 since Go 1.22), the
other characters below 32 and the characters `<`, `>`, `&` the form `\u00XX`, U+2028
and U+2029 the form `\u202X`, every other character itself. -/
def jsonEscapeChar (c : Char) : List Char :=
  let n := c.toNat
  if n = 92 ∨ n = 34 then [Char.ofNat 92, c]
  else if n = 8 then [Char.ofNat 92, Char.ofNat 98]
  else if n = 12 then [Char.ofNat 92, Char.ofNat 102]
  else if n = 10 then [Char.ofNat 92, Char.ofNat 110]
  else if n = 13 then [Char.ofNat 92, Char.ofNat 114]
  else if n = 9 then [Char.ofNat 92, Char.ofNat 116]
  else if n < 32 ∨ n = 60 ∨ n = 62 ∨ n = 38 then
    [Char.ofNat 92, Char.ofNat 117, Char.ofNat 48, Char.ofNat 48, hexDigit (n / 16),
      hexDigit (n % 16)]
  else if n = 8232 ∨ n = 8233 then
    [Char.ofNat 92, Char.ofNat 117, Char.ofNat 50, Char.ofNat 48, Char.ofNat 50,
      hexDigit (n % 16)]
  else [c]

/-- The JSON encoding of a Go string. -/
def jsonString (s : String) : String :=
  "\"" ++ String.mk (s.data.flatMap jsonEscapeChar) ++ "\""

/-- The JSON encoding of a non-nil Go slice whose elements are already encoded. -/
def jsonArray (items : List String) : String :=
  "[" ++ ",".intercalate items ++ "]"

/-- The JSON encoding of a `models.PublicVideo`. -/
def jsonPublicVideo (v : PublicVideo) : String :=
  "\x7b\"name\":" ++ jsonString v.Name ++ ",\"path\":" ++ jsonString v.Path ++ "\x7d"

/-- The JSON encoding of a `models.PublicVideoFolder`. -/
def jsonPublicVideoFolder (f : PublicVideoFolder) : String :=
  "\x7b\"name\":" ++ jsonString f.Name ++ ",\"videos\":" ++
    jsonArray (f.Videos.map jsonPublicVideo) ++ "\x7d"

/-- The JSON encoding of a `models.VideoURLListResponse`. -/
def jsonVideoURLListResponse (r : VideoURLListResponse) : String :=
  "\x7b\"folders\":" ++ jsonArray (r.Folders.map jsonPublicVideoFolder) ++ "\x7d"

/-- Go `json.NewEncoder(w).Encode(v)` for a `models.VideoURLListResponse`: the encoding
of the value followed by a newline character. -/
def encoderEncode (r : VideoURLListResponse) : String :=
  jsonVideoURLListResponse r ++ "\n"

/-- The inner loop of the `/videourls` handler: `publicVideos` after the loop. -/
def publicVideosOf (vids : List Video) : List PublicVideo :=
  vids.foldl (fun publicVideos video =>
    publicVideos ++ [{ Name := video.Name, Path := video.Path }]) []

/-- The outer loop of the `/videourls` handler: `folders` after the loop, for the
order in which the range visits `videoURLs`. -/
def publicFoldersOf (order : List (String × List Video)) : List PublicVideoFolder :=
  order.foldl (fun folders e =>
    folders ++ [{ Name := e.1, Videos := publicVideosOf e.2 }]) []

/-- The `/videourls` handler registered by `videos`. -/
def videoURLsHandler (order : List (String × List Video)) : Response :=
  Response.json "application/json" (encoderEncode { Folders := publicFoldersOf order })

/-! ## Auxiliary definitions for the statements -/

/-- The value of a decimal digit character. -/
def digitVal (c : Char) : Nat := c.toNat - 48

/-- The number a digit string denotes. -/
def decimalVal (cs : List Char) : Nat :=
  cs.foldl (fun acc c => 10 * acc + digitVal c) 0

/-- The characters of the text `/dir`. -/
def dirChars : List Char := [Char.ofNat 47, Char.ofNat 100, Char.ofNat 105, Char.ofNat 114]

/-- The characters of the text `video`. -/
def videoChars : List Char :=
  [Char.ofNat 118, Char.ofNat 105, Char.ofNat 100, Char.ofNat 101, Char.ofNat 111]

/-- The entries `all` adds for the roots from position `i` on, in input order. -/
def allEntries (abs : Nat → String → Option String) :
    Nat → List String → List (String × Folder)
  | _, [] => []
  | i, dir :: rest =>
    match abs i dir with
    | none => allEntries abs (i + 1) rest
    | some absDir =>
      (dirPfx (i + 1), { Name := dirPfx (i + 1), Path := absDir }) ::
        allEntries abs (i + 1) rest

/-- The number of roots of `dirs`, the first at position `i`, whose resolution succeeds. -/
def resolvedCount (abs : Nat → String → Option String) : Nat → List String → Nat
  | _, [] => 0
  | i, dir :: rest =>
    (if (abs i dir).isSome then 1 else 0) + resolvedCount abs (i + 1) rest

/-- The visits on which the walk callback emits an entry: the non-directory entries
whose name satisfies `isVideo`. -/
def matching (lower : Char → Char) (extensions : List String) (visits : List Visit) :
    List Visit :=
  visits.filter (fun v => !v.info.isDir && isVideo lower v.info.name extensions)

/-- The visits of a walk up to its first error. -/
def beforeError : List Visit → List Visit
  | [] => []
  | v :: rest => if v.err.isSome then [] else v :: beforeError rest

/-- The entries with the aliases `video<k>`, `video<k+1>`, ... for the given visits. -/
def aliased (pfx : String) : Nat → List Visit → List Video
  | _, [] => []
  | k, v :: rest =>
    { Name := v.info.name, Path := pfx ++ ("video" ++ sprintD k), FilePath := v.path } ::
      aliased pfx (k + 1) rest

/-- The entries a root with the given walk contributes under `pfx`: the matching
visits before the first error, numbered from 1. -/
def rootEntries (env : Env) (extensions : List String) (pfx : String)
    (visits : List Visit) : List Video :=
  aliased pfx 1 (matching env.lower extensions (beforeError visits))

/-- The entries `videos` adds for the roots from position `i` on, the next prefix
number being `counter`. -/
def videosEntries (env : Env) (extensions : List String) :
    Nat → Nat → List String → List (String × List Video)
  | _, _, [] => []
  | i, counter, dir :: rest =>
    match env.abs i dir with
    | none => videosEntries env extensions (i + 1) counter rest
    | some absDir =>
      let es := rootEntries env extensions (dirPfx counter) (env.walk i absDir)
      if es.isEmpty then videosEntries env extensions (i + 1) (counter + 1) rest
      else (dirPfx counter, es) :: videosEntries env extensions (i + 1) (counter + 1) rest

/-- The registry invariant of videos mode: distinct keys of the form `/dir<c>/`, each
with a non-empty list whose entry at position `idx` has the alias `video<idx+1>`. -/
def VideosWF (reg : GoMap (List Video)) : Prop :=
  (mapKeys reg).Nodup ∧
  ∀ e ∈ reg, ∃ c, e.1 = dirPfx c ∧ e.2 ≠ [] ∧
    ∀ idx v, e.2[idx]? = some v → v.Path = dirPfx c ++ ("video" ++ sprintD (idx + 1))

/-- The registry invariant of all mode: distinct keys of the form `/dir<c>/`, each
entry named by its key. -/
def FoldersWF (reg : GoMap Folder) : Prop :=
  (mapKeys reg).Nodup ∧ ∀ e ∈ reg, ∃ c, e.1 = dirPfx c ∧ e.2.Name = dirPfx c

/-- An environment with a changed walk for iteration `i`. -/
def Env.withWalk (env : Env) (i : Nat) (visits : List Visit) : Env :=
  { env with walk := fun j d => if j = i then visits else env.walk j d }

/-! ## A sample environment -/

/-- The walk of the sample root `/srv/m`: two videos, one of them in a subdirectory. -/
def sampleWalkM : List Visit :=
  [{ path := "/srv/m", info := { name := "m", isDir := true }, err := none },
   { path := "/srv/m/a.mp4", info := { name := "a.mp4", isDir := false }, err := none },
   { path := "/srv/m/notes.txt", info := { name := "notes.txt", isDir := false }, err := none },
   { path := "/srv/m/sub", info := { name := "sub", isDir := true }, err := none },
   { path := "/srv/m/sub/B.MKV", info := { name := "B.MKV", isDir := false }, err := none }]

/-- The walk of the sample root `/srv/e`: one video, then an unreadable directory, then
what the walk would have visited after it. -/
def sampleWalkE : List Visit :=
  [{ path := "/srv/e", info := { name := "e", isDir := true }, err := none },
   { path := "/srv/e/c.mp4", info := { name := "c.mp4", isDir := false }, err := none },
   { path := "/srv/e/locked", info := { name := "locked", isDir := true },
     err := some "permission denied" },
   { path := "/srv/e/z.mp4", info := { name := "z.mp4", isDir := false }, err := none }]

/-- A sample environment: the root `bad` does not resolve, every other root `d`
resolves to `/srv/d`; `/srv/m` and `/srv/e` are walked as above and every other root
holds no file. -/
def sampleEnv : Env where
  abs := fun _ dir => if dir = "bad" then none else some ("/srv/" ++ dir)
  walk := fun _ absDir =>
    if absDir = "/srv/m" then sampleWalkM
    else if absDir = "/srv/e" then sampleWalkE
    else [{ path := absDir, info := { name := "x", isDir := true }, err := none }]
  lower := asciiLower

/-! ## Decimal numerals, prefixes and alias paths -/

theorem digitChar_toNat (d : Nat) (h : d < 10) : (Nat.digitChar d).toNat = 48 + d := by
  interval_cases d <;> rfl

theorem toDigitsCore_append (fuel : Nat) : ∀ (n : Nat) (ds : List Char),
    Nat.toDigitsCore 10 fuel n ds = Nat.toDigitsCore 10 fuel n [] ++ ds := by
  induction fuel with
  | zero => intro n ds; simp [Nat.toDigitsCore]
  | succ f ih =>
    intro n ds
    simp only [Nat.toDigitsCore]
    split
    · simp
    · rw [ih (n / 10) (Nat.digitChar (n % 10) :: ds), ih (n / 10) [Nat.digitChar (n % 10)]]
      simp

theorem decimalVal_append_single (cs : List Char) (c : Char) :
    decimalVal (cs ++ [c]) = 10 * decimalVal cs + digitVal c := by
  simp [decimalVal, List.foldl_append]

theorem decimalVal_toDigitsCore (fuel : Nat) : ∀ n : Nat, n < fuel →
    decimalVal (Nat.toDigitsCore 10 fuel n []) = n := by
  induction fuel with
  | zero => intro n h; omega
  | succ f ih =>
    intro n h
    have hd : digitVal (Nat.digitChar (n % 10)) = n % 10 := by
      simp [digitVal, digitChar_toNat (n % 10) (Nat.mod_lt _ (by decide))]
    simp only [Nat.toDigitsCore]
    split
    · rename_i h0
      simp only [decimalVal, List.foldl, hd]
      omega
    · rename_i h0
      rw [toDigitsCore_append, decimalVal_append_single, ih (n / 10) (by omega), hd]
      omega

theorem toDigitsCore_noSlash (fuel : Nat) : ∀ (n : Nat) (ds : List Char),
    (∀ c ∈ ds, c ≠ Char.ofNat 47) → ∀ c ∈ Nat.toDigitsCore 10 fuel n ds, c ≠ Char.ofNat 47 := by
  induction fuel with
  | zero => intro n ds h; simpa [Nat.toDigitsCore] using h
  | succ f ih =>
    intro n ds h
    have hd : Nat.digitChar (n % 10) ≠ Char.ofNat 47 := by
      intro hc
      have := digitChar_toNat (n % 10) (Nat.mod_lt _ (by decide))
      rw [hc] at this
      have h47 : (Char.ofNat 47).toNat = 47 := by decide
      omega
    have h' : ∀ c ∈ Nat.digitChar (n % 10) :: ds, c ≠ Char.ofNat 47 := by
      intro c hc
      rcases List.mem_cons.1 hc with rfl | hc
      · exact hd
      · exact h c hc
    simp only [Nat.toDigitsCore]
    split
    · exact h'
    · exact ih _ _ h'

theorem sprintD_injective {n m : Nat} (h : sprintD n = sprintD m) : n = m := by
  have h1 : (Nat.toDigits 10 n) = (Nat.toDigits 10 m) := by
    have := congrArg String.data h
    simpa [sprintD, Nat.repr, List.asString] using this
  have hn := decimalVal_toDigitsCore (n + 1) n (Nat.lt_succ_self n)
  have hm := decimalVal_toDigitsCore (m + 1) m (Nat.lt_succ_self m)
  simp only [Nat.toDigits] at h1
  rw [h1] at hn
  omega

theorem sprintD_noSlash (n : Nat) : ∀ c ∈ (sprintD n).data, c ≠ Char.ofNat 47 := by
  simp only [sprintD, Nat.repr, List.asString, Nat.toDigits]
  exact toDigitsCore_noSlash _ _ _ (by simp)


theorem split_at_slash : ∀ (xs ys r r' : List Char),
    (∀ c ∈ xs, c ≠ Char.ofNat 47) → (∀ c ∈ ys, c ≠ Char.ofNat 47) →
    xs ++ Char.ofNat 47 :: r = ys ++ Char.ofNat 47 :: r' → xs = ys ∧ r = r' := by
  intro xs
  induction xs with
  | nil =>
    intro ys r r' _ hy h
    cases ys with
    | nil => simpa using h
    | cons y ys =>
      simp only [List.nil_append, List.cons_append, List.cons.injEq] at h
      exact absurd h.1.symm (hy y (List.mem_cons_self _ _))
  | cons x xs ih =>
    intro ys r r' hx hy h
    cases ys with
    | nil =>
      simp only [List.nil_append, List.cons_append, List.cons.injEq] at h
      exact absurd h.1 (hx x (List.mem_cons_self _ _))
    | cons y ys =>
      simp only [List.cons_append, List.cons.injEq] at h
      obtain ⟨h1, h2⟩ := ih ys r r' (fun c hc => hx c (List.mem_cons_of_mem _ hc))
        (fun c hc => hy c (List.mem_cons_of_mem _ hc)) h.2
      exact ⟨by rw [h.1, h1], h2⟩

theorem dirPfx_data (n : Nat) :
    (dirPfx n).data = dirChars ++ ((sprintD n).data ++ [Char.ofNat 47]) := by
  simp [dirPfx, dirChars, String.data_append]

theorem dirPfx_injective {n m : Nat} (h : dirPfx n = dirPfx m) : n = m := by
  have h1 := congrArg String.data h
  rw [dirPfx_data, dirPfx_data] at h1
  have h2 := List.append_cancel_left h1
  have h3 := List.append_cancel_right h2
  exact sprintD_injective (String.ext h3)

theorem trimSuffix_dirPfx (n : Nat) :
    (trimSuffix (dirPfx n) "/").data = dirChars ++ (sprintD n).data := by
  have hs : hasSuffix (dirPfx n) "/" = true := by
    simp only [hasSuffix, List.isSuffixOf_iff_suffix, dirPfx_data]
    exact ⟨dirChars ++ (sprintD n).data, by simp⟩
  simp only [trimSuffix, hs, if_true, dirPfx_data]
  have h1 : ("/" : String).data.length = 1 := rfl
  rw [h1, ← List.append_assoc]
  have h2 : (dirChars ++ (sprintD n).data ++ [Char.ofNat 47]).length - 1 =
      (dirChars ++ (sprintD n).data).length := by simp
  rw [h2, List.take_left]


theorem trimmed_injective {n m : Nat}
    (h : trimSuffix (dirPfx n) "/" = trimSuffix (dirPfx m) "/") : n = m := by
  have h1 := congrArg String.data h
  rw [trimSuffix_dirPfx, trimSuffix_dirPfx] at h1
  exact sprintD_injective (String.ext (List.append_cancel_left h1))

theorem trimmed_ne_dirPfx (n m : Nat) : trimSuffix (dirPfx n) "/" ≠ dirPfx m := by
  intro h
  have h1 := congrArg String.data h
  rw [trimSuffix_dirPfx, dirPfx_data] at h1
  have h2 := List.append_cancel_left h1
  have : Char.ofNat 47 ∈ (sprintD n).data := by rw [h2]; simp
  exact sprintD_noSlash n _ this rfl

theorem dirPfx_ne_root (n : Nat) : dirPfx n ≠ "/" := by
  intro h
  have h1 := congrArg String.data h
  rw [dirPfx_data] at h1
  have h2 := congrArg List.length h1
  simp [dirChars] at h2

theorem trimmed_ne_root (n : Nat) : trimSuffix (dirPfx n) "/" ≠ "/" := by
  intro h
  have h1 := congrArg String.data h
  rw [trimSuffix_dirPfx] at h1
  have h2 := congrArg List.length h1
  simp [dirChars] at h2

theorem aliasPath_data (n k : Nat) :
    (dirPfx n ++ ("video" ++ sprintD k)).data =
      dirChars ++ ((sprintD n).data ++ Char.ofNat 47 :: (videoChars ++ (sprintD k).data)) := by
  simp [String.data_append, dirPfx_data, videoChars]

theorem aliasPath_injective {n k m j : Nat}
    (h : dirPfx n ++ ("video" ++ sprintD k) = dirPfx m ++ ("video" ++ sprintD j)) :
    n = m ∧ k = j := by
  have h1 := congrArg String.data h
  rw [aliasPath_data, aliasPath_data] at h1
  obtain ⟨h2, h3⟩ := split_at_slash _ _ _ _ (sprintD_noSlash n) (sprintD_noSlash m)
    (List.append_cancel_left h1)
  exact ⟨sprintD_injective (String.ext h2),
    sprintD_injective (String.ext (List.append_cancel_left h3))⟩

theorem aliasPath_ne_dirPfx (n k m : Nat) :
    dirPfx n ++ ("video" ++ sprintD k) ≠ dirPfx m := by
  intro h
  have h1 := congrArg String.data h
  rw [aliasPath_data, dirPfx_data] at h1
  obtain ⟨_, h3⟩ := split_at_slash _ _ _ _ (sprintD_noSlash n) (sprintD_noSlash m)
    (List.append_cancel_left h1)
  simp [videoChars] at h3

theorem aliasPath_ne_trimmed (n k m : Nat) :
    dirPfx n ++ ("video" ++ sprintD k) ≠ trimSuffix (dirPfx m) "/" := by
  intro h
  have h1 := congrArg String.data h
  rw [aliasPath_data, trimSuffix_dirPfx] at h1
  have h2 := List.append_cancel_left h1
  have : Char.ofNat 47 ∈ (sprintD m).data := by rw [← h2]; simp
  exact sprintD_noSlash m _ this rfl

theorem aliasPath_ne_root (n k : Nat) : dirPfx n ++ ("video" ++ sprintD k) ≠ "/" := by
  intro h
  have h1 := congrArg String.data h
  rw [aliasPath_data] at h1
  have h2 := congrArg List.length h1
  simp [dirChars] at h2

/-! ## Map lemmas -/

theorem mapLookup_mapSet_self {V : Type} (m : GoMap V) (key : String) (val : V) :
    mapLookup (mapSet m key val) key = some val := by
  induction m with
  | nil => simp [mapSet, mapLookup]
  | cons e rest ih =>
    obtain ⟨k, v⟩ := e
    by_cases h : k = key
    · simp [mapSet, mapLookup, h]
    · simp [mapSet, mapLookup, h, ih]

theorem mapSet_mapSet {V : Type} (m : GoMap V) (key : String) (v w : V) :
    mapSet (mapSet m key v) key w = mapSet m key w := by
  induction m with
  | nil => simp [mapSet]
  | cons e rest ih =>
    obtain ⟨k, u⟩ := e
    by_cases h : k = key
    · simp [mapSet, h]
    · simp [mapSet, h, ih]

theorem mapSet_of_not_mem {V : Type} (m : GoMap V) (key : String) (val : V)
    (h : key ∉ mapKeys m) : mapSet m key val = m ++ [(key, val)] := by
  induction m with
  | nil => simp [mapSet]
  | cons e rest ih =>
    obtain ⟨k, u⟩ := e
    simp only [mapKeys, List.map_cons, List.mem_cons, not_or] at h
    have hk : ¬ k = key := fun hk => h.1 hk.symm
    simp [mapSet, hk, ih h.2]

theorem mapLookup_of_not_mem {V : Type} (m : GoMap V) (key : String)
    (h : key ∉ mapKeys m) : mapLookup m key = none := by
  induction m with
  | nil => simp [mapLookup]
  | cons e rest ih =>
    obtain ⟨k, u⟩ := e
    simp only [mapKeys, List.map_cons, List.mem_cons, not_or] at h
    have hk : ¬ k = key := fun hk => h.1 hk.symm
    simp [mapLookup, hk, ih h.2]

theorem mapLookup_mem {V : Type} (m : GoMap V) (key : String) (val : V)
    (h : mapLookup m key = some val) : (key, val) ∈ m := by
  induction m with
  | nil => simp [mapLookup] at h
  | cons e rest ih =>
    obtain ⟨k, u⟩ := e
    by_cases hk : k = key
    · simp only [mapLookup, hk, if_true, Option.some.injEq] at h
      simp [hk, h]
    · simp only [mapLookup, hk, if_false] at h
      exact List.mem_cons_of_mem _ (ih h)

theorem mapLookup_of_mem {V : Type} (m : GoMap V) (key : String) (val : V)
    (hn : (mapKeys m).Nodup) (h : (key, val) ∈ m) : mapLookup m key = some val := by
  induction m with
  | nil => simp at h
  | cons e rest ih =>
    obtain ⟨k, u⟩ := e
    simp only [mapKeys, List.map_cons, List.nodup_cons] at hn
    rcases List.mem_cons.1 h with h | h
    · simp only [Prod.mk.injEq] at h
      simp [mapLookup, h.1, h.2]
    · have hk : ¬ k = key := by
        intro hk
        apply hn.1
        rw [hk]
        exact List.mem_map_of_mem Prod.fst h
      simp only [mapLookup, hk, if_false]
      exact ih hn.2 h

theorem mem_mapKeys_of_mem {V : Type} (m : GoMap V) (e : String × V) (h : e ∈ m) :
    e.1 ∈ mapKeys m :=
  List.mem_map_of_mem Prod.fst h

/-! ## The registry of all mode in closed form -/

theorem allEntries_keys (abs : Nat → String → Option String) (dirs : List String) :
    ∀ i key, key ∈ mapKeys (allEntries abs i dirs) →
      ∃ j, i ≤ j ∧ j < i + dirs.length ∧ key = dirPfx (j + 1) := by
  induction dirs with
  | nil => intro i key h; simp [allEntries, mapKeys] at h
  | cons dir rest ih =>
    intro i key h
    simp only [allEntries] at h
    split at h
    · obtain ⟨j, h1, h2, h3⟩ := ih (i + 1) key h
      exact ⟨j, by omega, by simp only [List.length_cons]; omega, h3⟩
    · simp only [mapKeys, List.map_cons, List.mem_cons] at h
      rcases h with h | h
      · exact ⟨i, le_refl _, by simp, h⟩
      · obtain ⟨j, h1, h2, h3⟩ := ih (i + 1) key h
        exact ⟨j, by omega, by simp only [List.length_cons]; omega, h3⟩

theorem allEntries_nodup (abs : Nat → String → Option String) (dirs : List String) :
    ∀ i, (mapKeys (allEntries abs i dirs)).Nodup := by
  induction dirs with
  | nil => intro i; simp [allEntries, mapKeys]
  | cons dir rest ih =>
    intro i
    simp only [allEntries]
    split
    · exact ih (i + 1)
    · simp only [mapKeys, List.map_cons, List.nodup_cons]
      refine ⟨?_, ih (i + 1)⟩
      intro h
      obtain ⟨j, h1, _, h3⟩ := allEntries_keys abs rest (i + 1) _ h
      have := dirPfx_injective h3
      omega

theorem allLoop_eq (abs : Nat → String → Option String) (dirs : List String) :
    ∀ i (m : GoMap Folder), (∀ key ∈ mapKeys m, ∀ j, i ≤ j → key ≠ dirPfx (j + 1)) →
      allLoop abs i dirs m = m ++ allEntries abs i dirs := by
  induction dirs with
  | nil => intro i m _; simp [allLoop, allEntries]
  | cons dir rest ih =>
    intro i m hm
    simp only [allLoop, allEntries]
    split
    · exact ih (i + 1) m (fun key hk j hj => hm key hk j (by omega))
    · rename_i absDir _
      have hnot : dirPfx (i + 1) ∉ mapKeys m := fun hk => hm _ hk i (le_refl _) rfl
      rw [mapSet_of_not_mem m _ _ hnot, ih (i + 1)]
      · simp
      · intro key hk j hj
        simp only [mapKeys, List.map_append, List.map_cons, List.map_nil, List.mem_append,
          List.mem_singleton] at hk
        rcases hk with hk | hk
        · exact hm key hk j (by omega)
        · rw [hk]
          intro h
          have := dirPfx_injective h
          omega

theorem all_eq_allEntries (abs : Nat → String → Option String) (dirs : List String) :
    all abs dirs = allEntries abs 0 dirs := by
  simp [all, allLoop_eq abs dirs 0 [] (by simp [mapKeys])]

theorem allEntries_length (abs : Nat → String → Option String) (dirs : List String) :
    ∀ i, (allEntries abs i dirs).length ≤ dirs.length := by
  induction dirs with
  | nil => intro i; simp [allEntries]
  | cons dir rest ih =>
    intro i
    simp only [allEntries]
    split
    · have := ih (i + 1); simp only [List.length_cons]; omega
    · have := ih (i + 1); simp only [List.length_cons]; omega

theorem allEntries_mem (abs : Nat → String → Option String) (dirs : List String) :
    ∀ i (e : String × Folder), e ∈ allEntries abs i dirs ↔
      ∃ j dir absDir, dirs[j]? = some dir ∧ abs (i + j) dir = some absDir ∧
        e = (dirPfx (i + j + 1), { Name := dirPfx (i + j + 1), Path := absDir }) := by
  induction dirs with
  | nil => intro i e; simp [allEntries]
  | cons dir rest ih =>
    intro i e
    constructor
    · intro h
      simp only [allEntries] at h
      split at h
      · obtain ⟨j, d, a, h1, h2, h3⟩ := (ih (i + 1) e).1 h
        refine ⟨j + 1, d, a, by simpa using h1, ?_, ?_⟩
        · rw [← h2]; congr 1; omega
        · rw [h3]; congr 2 <;> congr 1 <;> omega
      · rename_i absDir habs
        rcases List.mem_cons.1 h with h | h
        · exact ⟨0, dir, absDir, by simp, by simpa using habs, by simpa using h⟩
        · obtain ⟨j, d, a, h1, h2, h3⟩ := (ih (i + 1) e).1 h
          refine ⟨j + 1, d, a, by simpa using h1, ?_, ?_⟩
          · rw [← h2]; congr 1; omega
          · rw [h3]; congr 2 <;> congr 1 <;> omega
    · rintro ⟨j, d, a, h1, h2, h3⟩
      simp only [allEntries]
      cases j with
      | zero =>
        simp only [List.getElem?_cons_zero, Option.some.injEq] at h1
        subst h1
        simp only [Nat.add_zero] at h2 h3
        rw [h2]
        simp [h3]
      | succ j =>
        simp only [List.getElem?_cons_succ] at h1
        have hmem : e ∈ allEntries abs (i + 1) rest := by
          refine (ih (i + 1) e).2 ⟨j, d, a, h1, ?_, ?_⟩
          · rw [← h2]; congr 1; omega
          · rw [h3]; congr 2 <;> congr 1 <;> omega
        split
        · exact hmem
        · exact List.mem_cons_of_mem _ hmem

/-! ## The walk of one root in closed form -/

theorem mapGet_mapSet_self {T : Type} (m : GoMap (List T)) (key : String) (val : List T) :
    mapGet (mapSet m key val) key = val := by
  simp [mapGet, mapLookup_mapSet_self]

theorem filepathWalk_videoURLs (lower : Char → Char) (extensions : List String)
    (pfx : String) : ∀ (visits : List Visit) (m : GoMap (List Video)) (k : Nat),
    (filepathWalk (walkFn lower extensions pfx) visits
        { videoURLs := m, videoCounter := k }).1.videoURLs =
      if (aliased pfx k (matching lower extensions (beforeError visits))).isEmpty then m
      else mapSet m pfx
        (mapGet m pfx ++ aliased pfx k (matching lower extensions (beforeError visits))) := by
  intro visits
  induction visits with
  | nil => intro m k; simp [filepathWalk, beforeError, matching, aliased]
  | cons v rest ih =>
    intro m k
    cases herr : v.err with
    | some e =>
      simp [filepathWalk, walkFn, herr, beforeError, matching, aliased]
    | none =>
      by_cases hc : (!v.info.isDir && isVideo lower v.info.name extensions) = true
      · have hm : matching lower extensions (beforeError (v :: rest)) =
            v :: matching lower extensions (beforeError rest) := by
          simp only [beforeError, herr, Option.isSome_none, Bool.false_eq_true, if_false,
            matching]
          rw [List.filter_cons]
          exact if_pos hc
        rw [hm]
        simp only [filepathWalk, walkFn, herr, hc, if_true, aliased, List.isEmpty_cons,
          Bool.false_eq_true, if_false]
        rw [ih]
        split
        · rename_i hemp
          rw [List.isEmpty_iff.1 hemp]
        · rw [mapGet_mapSet_self, mapSet_mapSet, List.append_assoc]
          rfl
      · have hm : matching lower extensions (beforeError (v :: rest)) =
            matching lower extensions (beforeError rest) := by
          simp only [beforeError, herr, Option.isSome_none, Bool.false_eq_true, if_false,
            matching]
          rw [List.filter_cons]
          exact if_neg hc
        rw [hm]
        simp only [filepathWalk, walkFn, herr, hc, if_false]
        exact ih m k

theorem aliased_getElem? (pfx : String) : ∀ (vs : List Visit) (k idx : Nat),
    (aliased pfx k vs)[idx]? = vs[idx]?.map (fun x =>
      { Name := x.info.name, Path := pfx ++ ("video" ++ sprintD (k + idx)),
        FilePath := x.path }) := by
  intro vs
  induction vs with
  | nil => intro k idx; simp [aliased]
  | cons x rest ih =>
    intro k idx
    cases idx with
    | zero => simp [aliased]
    | succ n =>
      simp only [aliased, List.getElem?_cons_succ]
      rw [ih (k + 1) n]
      have : k + 1 + n = k + (n + 1) := by omega
      rw [this]

theorem aliased_length (pfx : String) : ∀ (vs : List Visit) (k : Nat),
    (aliased pfx k vs).length = vs.length := by
  intro vs
  induction vs with
  | nil => intro k; simp [aliased]
  | cons x rest ih => intro k; simp [aliased, ih]

theorem beforeError_of_no_error : ∀ (visits : List Visit),
    (∀ v ∈ visits, v.err = none) → beforeError visits = visits := by
  intro visits
  induction visits with
  | nil => intro _; rfl
  | cons v rest ih =>
    intro h
    have hv : v.err = none := h v (List.mem_cons_self _ _)
    simp only [beforeError, hv, Option.isSome_none, Bool.false_eq_true, if_false]
    rw [ih (fun w hw => h w (List.mem_cons_of_mem _ hw))]

theorem beforeError_append_error : ∀ (before : List Visit) (bad : Visit) (after : List Visit),
    bad.err.isSome = true → beforeError (before ++ bad :: after) = beforeError before := by
  intro before
  induction before with
  | nil => intro bad after h; simp [beforeError, h]
  | cons v rest ih =>
    intro bad after h
    simp only [List.cons_append, beforeError]
    split
    · rfl
    · exact congrArg (List.cons v) (ih bad after h)

/-! ## The registry of videos mode in closed form -/

theorem videosEntries_keys (env : Env) (extensions : List String) (dirs : List String) :
    ∀ i c key, key ∈ mapKeys (videosEntries env extensions i c dirs) →
      ∃ n, c ≤ n ∧ n < c + dirs.length ∧ key = dirPfx n := by
  induction dirs with
  | nil => intro i c key h; simp [videosEntries, mapKeys] at h
  | cons dir rest ih =>
    intro i c key h
    simp only [videosEntries] at h
    split at h
    · obtain ⟨n, h1, h2, h3⟩ := ih (i + 1) c key h
      exact ⟨n, h1, by simp only [List.length_cons]; omega, h3⟩
    · split at h
      · obtain ⟨n, h1, h2, h3⟩ := ih (i + 1) (c + 1) key h
        exact ⟨n, by omega, by simp only [List.length_cons]; omega, h3⟩
      · simp only [mapKeys, List.map_cons, List.mem_cons] at h
        rcases h with h | h
        · exact ⟨c, le_refl _, by simp, h⟩
        · obtain ⟨n, h1, h2, h3⟩ := ih (i + 1) (c + 1) key h
          exact ⟨n, by omega, by simp only [List.length_cons]; omega, h3⟩

theorem videosEntries_not_key (env : Env) (extensions : List String) (dirs : List String)
    (i c n : Nat) (h : n < c) : dirPfx n ∉ mapKeys (videosEntries env extensions i c dirs) := by
  intro hk
  obtain ⟨n', h1, _, h3⟩ := videosEntries_keys env extensions dirs i c _ hk
  have := dirPfx_injective h3
  omega

theorem videosEntries_nodup (env : Env) (extensions : List String) (dirs : List String) :
    ∀ i c, (mapKeys (videosEntries env extensions i c dirs)).Nodup := by
  induction dirs with
  | nil => intro i c; simp [videosEntries, mapKeys]
  | cons dir rest ih =>
    intro i c
    simp only [videosEntries]
    split
    · exact ih (i + 1) c
    · split
      · exact ih (i + 1) (c + 1)
      · simp only [mapKeys, List.map_cons, List.nodup_cons]
        exact ⟨videosEntries_not_key env extensions rest (i + 1) (c + 1) c (by omega),
          ih (i + 1) (c + 1)⟩

theorem videosLoop_eq (env : Env) (extensions : List String) (dirs : List String) :
    ∀ i c (m : GoMap (List Video)), (∀ key ∈ mapKeys m, ∀ n, c ≤ n → key ≠ dirPfx n) →
      videosLoop env extensions i c dirs m = m ++ videosEntries env extensions i c dirs := by
  induction dirs with
  | nil => intro i c m _; simp [videosLoop, videosEntries]
  | cons dir rest ih =>
    intro i c m hm
    simp only [videosLoop, videosEntries]
    split
    · exact ih (i + 1) c m hm
    · rename_i absDir _
      have hnot : dirPfx c ∉ mapKeys m := fun hk => hm _ hk c (le_refl _) rfl
      rw [filepathWalk_videoURLs]
      have hget : mapGet m (dirPfx c) = [] := by
        simp [mapGet, mapLookup_of_not_mem m _ hnot]
      simp only [rootEntries]
      split
      · exact ih (i + 1) (c + 1) m (fun key hk n hn => hm key hk n (by omega))
      · rw [hget, List.nil_append, mapSet_of_not_mem m _ _ hnot, ih (i + 1) (c + 1)]
        · simp
        · intro key hk n hn
          simp only [mapKeys, List.map_append, List.map_cons, List.map_nil, List.mem_append,
            List.mem_singleton] at hk
          rcases hk with hk | hk
          · exact hm key hk n (by omega)
          · rw [hk]
            intro h
            have := dirPfx_injective h
            omega

theorem videos_eq_videosEntries (env : Env) (dirs : List String) (extensions : List String) :
    videos env dirs extensions = videosEntries env extensions 0 1 dirs := by
  simp [videos, videosLoop_eq env extensions dirs 0 1 [] (by simp [mapKeys])]

theorem videosEntries_mem (env : Env) (extensions : List String) (dirs : List String) :
    ∀ i c (e : String × List Video), e ∈ videosEntries env extensions i c dirs →
      ∃ n visits, e.1 = dirPfx n ∧ e.2 = rootEntries env extensions (dirPfx n) visits ∧
        e.2 ≠ [] := by
  induction dirs with
  | nil => intro i c e h; simp [videosEntries] at h
  | cons dir rest ih =>
    intro i c e h
    simp only [videosEntries] at h
    split at h
    · exact ih (i + 1) c e h
    · rename_i absDir _
      split at h
      · exact ih (i + 1) (c + 1) e h
      · rename_i hne
        rcases List.mem_cons.1 h with h | h
        · refine ⟨c, env.walk i absDir, by rw [h], by rw [h], ?_⟩
          rw [h]
          intro hnil
          apply hne
          simp only at hnil
          simp [hnil]
        · exact ih (i + 1) (c + 1) e h

theorem videosEntries_wf (env : Env) (extensions : List String) (dirs : List String)
    (i c : Nat) : VideosWF (videosEntries env extensions i c dirs) := by
  refine ⟨videosEntries_nodup env extensions dirs i c, ?_⟩
  intro e he
  obtain ⟨n, visits, h1, h2, h3⟩ := videosEntries_mem env extensions dirs i c e he
  refine ⟨n, h1, h3, ?_⟩
  intro idx v hv
  rw [h2, rootEntries, aliased_getElem?] at hv
  cases hx : (matching env.lower extensions (beforeError visits))[idx]? with
  | none => simp [hx] at hv
  | some x =>
    simp only [hx, Option.map_some', Option.some.injEq] at hv
    rw [← hv]
    simp only
    rw [Nat.add_comm 1 idx]

theorem videos_wf (env : Env) (dirs : List String) (extensions : List String) :
    VideosWF (videos env dirs extensions) := by
  rw [videos_eq_videosEntries]
  exact videosEntries_wf env extensions dirs 0 1

theorem all_wf (abs : Nat → String → Option String) (dirs : List String) :
    FoldersWF (all abs dirs) := by
  rw [all_eq_allEntries]
  refine ⟨allEntries_nodup abs dirs 0, ?_⟩
  intro e he
  obtain ⟨j, dir, a, _, _, h3⟩ := (allEntries_mem abs dirs 0 e).1 he
  exact ⟨0 + j + 1, by rw [h3], by rw [h3]⟩

theorem videosEntries_mapGet (env : Env) (extensions : List String) :
    ∀ (before : List String) (i c : Nat) (dir : String) (after : List String)
      (absDir : String), env.abs (i + before.length) dir = some absDir →
      mapGet (videosEntries env extensions i c (before ++ dir :: after))
          (dirPfx (c + resolvedCount env.abs i before)) =
        rootEntries env extensions (dirPfx (c + resolvedCount env.abs i before))
          (env.walk (i + before.length) absDir) := by
  intro before
  induction before with
  | nil =>
    intro i c dir after absDir habs
    simp only [List.length_nil, Nat.add_zero] at habs
    simp only [List.nil_append, resolvedCount, Nat.add_zero, List.length_nil, videosEntries,
      habs]
    split
    · rename_i hemp
      rw [List.isEmpty_iff.1 hemp]
      simp [mapGet, mapLookup_of_not_mem _ _
        (videosEntries_not_key env extensions after (i + 1) (c + 1) c (by omega))]
    · simp [mapGet, mapLookup]
  | cons x rest ih =>
    intro i c dir after absDir habs
    have hidx : i + (x :: rest).length = i + 1 + rest.length := by
      simp only [List.length_cons]; omega
    rw [hidx] at habs ⊢
    simp only [List.cons_append, resolvedCount, videosEntries]
    cases hx : env.abs i x with
    | none =>
      simp only [Option.isSome_none, Bool.false_eq_true, if_false, Nat.zero_add]
      exact ih (i + 1) c dir after absDir habs
    | some a =>
      simp only [Option.isSome_some, if_true]
      have hc : c + (1 + resolvedCount env.abs (i + 1) rest) =
          c + 1 + resolvedCount env.abs (i + 1) rest := by omega
      rw [hc]
      split
      · exact ih (i + 1) (c + 1) dir after absDir habs
      · have hne : ¬ dirPfx c = dirPfx (c + 1 + resolvedCount env.abs (i + 1) rest) := by
          intro h
          have := dirPfx_injective h
          omega
        have := ih (i + 1) (c + 1) dir after absDir habs
        simp only [mapGet, mapLookup, hne, if_false] at this ⊢
        exact this

theorem videosEntries_congr (env env' : Env) (extensions : List String)
    (habs : env'.abs = env.abs) (hlower : env'.lower = env.lower) :
    ∀ (dirs : List String) (i c : Nat),
      (∀ k dir absDir, dirs[k]? = some dir → env.abs (i + k) dir = some absDir →
        beforeError (env'.walk (i + k) absDir) = beforeError (env.walk (i + k) absDir)) →
      videosEntries env' extensions i c dirs = videosEntries env extensions i c dirs := by
  intro dirs
  induction dirs with
  | nil => intro i c _; simp [videosEntries]
  | cons dir rest ih =>
    intro i c h
    have hrest : ∀ n, videosEntries env' extensions (i + 1) n rest =
        videosEntries env extensions (i + 1) n rest := by
      intro n
      apply ih (i + 1) n
      intro k d a hk ha
      have hi : i + 1 + k = i + (k + 1) := by omega
      rw [hi] at ha ⊢
      exact h (k + 1) d a (by simpa using hk) ha
    simp only [videosEntries, habs]
    cases hx : env.abs i dir with
    | none => exact hrest c
    | some a =>
      have hb := h 0 dir a (by simp) (by simpa using hx)
      simp only [Nat.add_zero] at hb
      simp only [rootEntries, hlower, hb, hrest]

theorem resolvedCount_all (abs : Nat → String → Option String) :
    ∀ (dirs : List String) (i : Nat),
      (∀ k dir, dirs[k]? = some dir → (abs (i + k) dir).isSome = true) →
      resolvedCount abs i dirs = dirs.length := by
  intro dirs
  induction dirs with
  | nil => intro i _; rfl
  | cons dir rest ih =>
    intro i h
    have h0 := h 0 dir (by simp)
    simp only [Nat.add_zero] at h0
    simp only [resolvedCount, h0, if_true, List.length_cons]
    rw [ih (i + 1)]
    · omega
    · intro k d hk
      have hi : i + 1 + k = i + (k + 1) := by omega
      rw [hi]
      exact h (k + 1) d (by simpa using hk)

theorem split_at_position (dirs : List String) (j : Nat) (dir : String)
    (h : dirs[j]? = some dir) :
    dirs = dirs.take j ++ dir :: dirs.drop (j + 1) ∧ (dirs.take j).length = j := by
  obtain ⟨hj, hd⟩ := List.getElem?_eq_some.1 h
  constructor
  · rw [← hd, ← List.drop_eq_getElem_cons hj, List.take_append_drop]
  · simp only [List.length_take]
    omega

theorem mem_mapKeys_of_mapGet_ne_nil {T : Type} (m : GoMap (List T)) (key : String)
    (h : mapGet m key ≠ []) : key ∈ mapKeys m := by
  by_contra hk
  apply h
  simp [mapGet, mapLookup_of_not_mem m key hk]

theorem filepathWalk_stop (lower : Char → Char) (extensions : List String) (pfx : String)
    (bad : Visit) (post : List Visit) (hbad : bad.err.isSome = true) :
    ∀ (pre : List Visit) (st : WalkState), (∀ v ∈ pre, v.err = none) →
      filepathWalk (walkFn lower extensions pfx) (pre ++ bad :: post) st =
        ((filepathWalk (walkFn lower extensions pfx) pre st).1, bad.err) := by
  intro pre
  induction pre with
  | nil =>
    intro st _
    obtain ⟨e, he⟩ := Option.isSome_iff_exists.1 hbad
    simp [filepathWalk, walkFn, he]
  | cons v rest ih =>
    intro st h
    have hv : v.err = none := h v (List.mem_cons_self _ _)
    have hrest : ∀ w ∈ rest, w.err = none := fun w hw => h w (List.mem_cons_of_mem _ hw)
    by_cases hc : (!v.info.isDir && isVideo lower v.info.name extensions) = true
    · simp only [List.cons_append, filepathWalk, walkFn, hv, hc, if_true]
      exact ih _ hrest
    · simp only [List.cons_append, filepathWalk, walkFn, hv, hc, if_false]
      exact ih _ hrest

/-! ## Claims about the registry of videos mode -/

/-- C2: for a root at any position of the input list that resolves and whose walk
reports no error, the list stored under the prefix of the root (`/dir<c>/`, `c` one
more than the number of resolving roots before it) has one entry per visited
non-directory entry whose name satisfies `isVideo`, in visit order, and the entry at
position `K` (counted from 0) has the file name as `Name`, the visited path as
`FilePath` and the prefix followed by `video<K+1>` as `Path`. -/
theorem videos_alias_numbering (env : Env) (directories extensions : List String)
    (before : List String) (dir : String) (after : List String) (absDir : String)
    (hdirs : directories = before ++ dir :: after)
    (habs : env.abs before.length dir = some absDir)
    (hok : ∀ v ∈ env.walk before.length absDir, v.err = none) :
    (mapGet (videos env directories extensions)
        (dirPfx (1 + resolvedCount env.abs 0 before))).length =
      (matching env.lower extensions (env.walk before.length absDir)).length ∧
    ∀ K v, (matching env.lower extensions (env.walk before.length absDir))[K]? = some v →
      (mapGet (videos env directories extensions)
          (dirPfx (1 + resolvedCount env.abs 0 before)))[K]? =
        some (Video.mk v.info.name
          (dirPfx (1 + resolvedCount env.abs 0 before) ++ ("video" ++ sprintD (K + 1)))
          v.path) := by
  have hget := videosEntries_mapGet env extensions before 0 1 dir after absDir
    (by simpa using habs)
  simp only [Nat.zero_add] at hget
  rw [videos_eq_videosEntries, hdirs, hget, rootEntries, beforeError_of_no_error _ hok]
  refine ⟨aliased_length _ _ _, ?_⟩
  intro K v hv
  rw [aliased_getElem?, hv, Nat.add_comm 1 K]
  rfl

/-- Witness of C2: in the sample environment the roots `bad`, `m` give the root `m` the
prefix `/dir1/` with the aliases `video1`, `video2`. -/
theorem videos_alias_numbering_witness :
    (∀ v ∈ sampleEnv.walk 1 "/srv/m", v.err = none) ∧
    mapGet (videos sampleEnv ["bad", "m"] defaultExtensions) "/dir1/" =
      [{ Name := "a.mp4", Path := "/dir1/video1", FilePath := "/srv/m/a.mp4" },
       { Name := "B.MKV", Path := "/dir1/video2", FilePath := "/srv/m/sub/B.MKV" }] ∧
    (mapGet (videos sampleEnv ["bad", "m"] defaultExtensions)
        (dirPfx (1 + resolvedCount sampleEnv.abs 0 ["bad"]))).length =
      (matching sampleEnv.lower defaultExtensions (sampleEnv.walk 1 "/srv/m")).length :=
  ⟨by decide, by decide,
    (videos_alias_numbering sampleEnv ["bad", "m"] defaultExtensions ["bad"] "m" []
      "/srv/m" rfl (by decide) (by decide)).1⟩

/-- C8: when the walk of a resolving root reports its first error at some node, the
walk returns that error with the state reached on the nodes before it; the registry
built is the one built when the walk of that root ends right before the failing node,
so the other roots keep their prefixes and lists; the failing root keeps exactly the
entries emitted before the error, and has no key when there are none (in particular
when the root itself cannot be read). -/
theorem walk_error_policy (env : Env) (directories extensions : List String)
    (before : List String) (dir : String) (after : List String) (absDir : String)
    (pre : List Visit) (bad : Visit) (post : List Visit)
    (hdirs : directories = before ++ dir :: after)
    (habs : env.abs before.length dir = some absDir)
    (hwalk : env.walk before.length absDir = pre ++ bad :: post)
    (hpre : ∀ v ∈ pre, v.err = none) (hbad : bad.err.isSome = true) :
    (∀ (pfx : String) (st : WalkState),
      filepathWalk (walkFn env.lower extensions pfx) (env.walk before.length absDir) st =
        ((filepathWalk (walkFn env.lower extensions pfx) pre st).1, bad.err)) ∧
    videos env directories extensions =
      videos (env.withWalk before.length pre) directories extensions ∧
    mapGet (videos env directories extensions)
        (dirPfx (1 + resolvedCount env.abs 0 before)) =
      aliased (dirPfx (1 + resolvedCount env.abs 0 before)) 1
        (matching env.lower extensions pre) ∧
    (matching env.lower extensions pre = [] →
      dirPfx (1 + resolvedCount env.abs 0 before) ∉
        mapKeys (videos env directories extensions)) := by
  have hget := videosEntries_mapGet env extensions before 0 1 dir after absDir
    (by simpa using habs)
  simp only [Nat.zero_add] at hget
  rw [hwalk, rootEntries, beforeError_append_error _ _ _ hbad,
    beforeError_of_no_error _ hpre] at hget
  have hlist : mapGet (videos env directories extensions)
      (dirPfx (1 + resolvedCount env.abs 0 before)) =
      aliased (dirPfx (1 + resolvedCount env.abs 0 before)) 1
        (matching env.lower extensions pre) := by
    rw [videos_eq_videosEntries, hdirs, hget]
  refine ⟨?_, ?_, hlist, ?_⟩
  · intro pfx st
    rw [hwalk]
    exact filepathWalk_stop env.lower extensions pfx bad post hbad pre st hpre
  · rw [videos_eq_videosEntries, videos_eq_videosEntries]
    symm
    apply videosEntries_congr env (env.withWalk before.length pre) extensions rfl rfl
    intro k d a hk ha
    simp only [Nat.zero_add, Env.withWalk] at ha ⊢
    by_cases hkj : k = before.length
    · subst hkj
      rw [hdirs] at hk
      simp only [List.getElem?_append_right (le_refl _), Nat.sub_self,
        List.getElem?_cons_zero, Option.some.injEq] at hk
      subst hk
      rw [habs] at ha
      simp only [Option.some.injEq] at ha
      subst ha
      simp only [if_true]
      rw [hwalk, beforeError_append_error _ _ _ hbad]
    · simp only [hkj, if_false]
  · intro hnone hk
    obtain ⟨e, he, hkey⟩ := List.mem_map.1 hk
    obtain ⟨hnd, hwf⟩ := videos_wf env directories extensions
    obtain ⟨c, _, hne, _⟩ := hwf e he
    have hlook := mapLookup_of_mem _ e.1 e.2 hnd he
    rw [hkey] at hlook
    have : mapGet (videos env directories extensions)
        (dirPfx (1 + resolvedCount env.abs 0 before)) = e.2 := by
      simp [mapGet, hlook]
    rw [hlist, hnone] at this
    exact hne this.symm

/-- Witness of C8: in the sample environment the walk of the root `e` fails at
`/srv/e/locked`; the root keeps `c.mp4` and the later root `m` is registered. -/
theorem walk_error_policy_witness :
    sampleEnv.walk 0 "/srv/e" = sampleWalkE.take 2 ++ sampleWalkE.get ⟨2, by decide⟩ ::
      sampleWalkE.drop 3 ∧
    videos sampleEnv ["e", "m"] defaultExtensions =
      [("/dir1/", [{ Name := "c.mp4", Path := "/dir1/video1", FilePath := "/srv/e/c.mp4" }]),
       ("/dir2/", [{ Name := "a.mp4", Path := "/dir2/video1", FilePath := "/srv/m/a.mp4" },
          { Name := "B.MKV", Path := "/dir2/video2", FilePath := "/srv/m/sub/B.MKV" }])] ∧
    videos sampleEnv ["e", "m"] defaultExtensions =
      videos (sampleEnv.withWalk 0 (sampleWalkE.take 2)) ["e", "m"] defaultExtensions :=
  ⟨by decide, by decide,
    (walk_error_policy sampleEnv ["e", "m"] defaultExtensions [] "e" ["m"] "/srv/e"
      (sampleWalkE.take 2) (sampleWalkE.get ⟨2, by decide⟩) (sampleWalkE.drop 3)
      rfl (by decide) (by decide) (by decide) (by decide)).2.1⟩

/-- C9: when every root resolves, the root at position `j` (counted from 0) is given
the prefix `/dir<j+1>/` whatever the walks yield: the list read under that prefix is
the list of entries of that root, the prefix is a key exactly when that list is not
empty, every key is one of `/dir1/` ... `/dirN/`, and every key maps to a non-empty
list. -/
theorem videos_prefix_numbering (env : Env) (directories extensions : List String)
    (hall : ∀ i dir, directories[i]? = some dir → (env.abs i dir).isSome = true) :
    (∀ j dir absDir, directories[j]? = some dir → env.abs j dir = some absDir →
      mapGet (videos env directories extensions) (dirPfx (j + 1)) =
        rootEntries env extensions (dirPfx (j + 1)) (env.walk j absDir) ∧
      (dirPfx (j + 1) ∈ mapKeys (videos env directories extensions) ↔
        rootEntries env extensions (dirPfx (j + 1)) (env.walk j absDir) ≠ [])) ∧
    (∀ key, key ∈ mapKeys (videos env directories extensions) →
      ∃ j, j < directories.length ∧ key = dirPfx (j + 1)) ∧
    (∀ key vids, (key, vids) ∈ videos env directories extensions →
      vids ≠ [] ∧ mapGet (videos env directories extensions) key = vids) := by
  obtain ⟨hnd, hwf⟩ := videos_wf env directories extensions
  have hval : ∀ key vids, (key, vids) ∈ videos env directories extensions →
      vids ≠ [] ∧ mapGet (videos env directories extensions) key = vids := by
    intro key vids hmem
    obtain ⟨c, _, hne, _⟩ := hwf (key, vids) hmem
    exact ⟨hne, by simp [mapGet, mapLookup_of_mem _ key vids hnd hmem]⟩
  refine ⟨?_, ?_, hval⟩
  · intro j dir absDir hj habs
    obtain ⟨hsplit, hlen⟩ := split_at_position directories j dir hj
    have hcount : resolvedCount env.abs 0 (directories.take j) = j := by
      rw [resolvedCount_all env.abs (directories.take j) 0, hlen]
      intro k d hk
      rw [Nat.zero_add]
      apply hall k d
      rw [List.getElem?_take] at hk
      split at hk
      · exact hk
      · simp at hk
    have hget := videosEntries_mapGet env extensions (directories.take j) 0 1 dir
      (directories.drop (j + 1)) absDir (by simpa [hlen] using habs)
    rw [← hsplit, hcount, Nat.zero_add, hlen, Nat.add_comm 1 j,
      ← videos_eq_videosEntries] at hget
    refine ⟨hget, ?_, ?_⟩
    · intro hk
      obtain ⟨e, he, hkey⟩ := List.mem_map.1 hk
      have := hval e.1 e.2 he
      rw [hkey, hget] at this
      rw [this.2]
      exact this.1
    · intro hne
      apply mem_mapKeys_of_mapGet_ne_nil
      rw [hget]
      exact hne
  · intro key hk
    rw [videos_eq_videosEntries] at hk
    obtain ⟨n, h1, h2, h3⟩ := videosEntries_keys env extensions directories 0 1 key hk
    refine ⟨n - 1, by omega, ?_⟩
    rw [h3]
    congr 1
    omega

/-- Witness of C9: in the sample environment the roots `m`, `x`, `e` all resolve; the
root `x` holds no video, has no key, and the root after it still gets `/dir3/`. -/
theorem videos_prefix_numbering_witness :
    (∀ i dir, ["m", "x", "e"][i]? = some dir → (sampleEnv.abs i dir).isSome = true) ∧
    mapKeys (videos sampleEnv ["m", "x", "e"] defaultExtensions) = ["/dir1/", "/dir3/"] ∧
    mapGet (videos sampleEnv ["m", "x", "e"] defaultExtensions) (dirPfx (2 + 1)) =
      rootEntries sampleEnv defaultExtensions (dirPfx (2 + 1)) (sampleEnv.walk 2 "/srv/e") :=
  ⟨by intro i dir h; simp [sampleEnv]; rintro rfl; rcases i with _ | _ | _ | i <;> simp at h,
    by decide,
    ((videos_prefix_numbering sampleEnv ["m", "x", "e"] defaultExtensions
      (by intro i dir h; simp [sampleEnv]; rintro rfl; rcases i with _ | _ | _ | i <;> simp at h)).1
        2 "e" "/srv/e" (by decide) (by decide)).1⟩

/-! ## Claims about the registry of all mode -/

/-- C1: for every list of roots and every outcome of the absolute-path resolutions, the
map built by `all` has at most as many entries as there are roots and pairwise distinct
keys; its keys are exactly the prefixes `/dir<i+1>/` of the positions `i` whose root
resolves; the entry under `/dir<i+1>/` has that prefix as `Name` and the resolved path
of the root at position `i` as `Path`; a root that fails to resolve has no entry; two
positions never get the same prefix; and when every root resolves the map has one entry
per root, under each of `/dir1/` ... `/dirN/`. -/
theorem all_registry_contract (abs : Nat → String → Option String)
    (directories : List String) :
    (all abs directories).length ≤ directories.length ∧
    (mapKeys (all abs directories)).Nodup ∧
    (∀ key, key ∈ mapKeys (all abs directories) ↔
      ∃ i dir, directories[i]? = some dir ∧ (abs i dir).isSome = true ∧
        key = dirPfx (i + 1)) ∧
    (∀ i dir absDir, directories[i]? = some dir → abs i dir = some absDir →
      mapLookup (all abs directories) (dirPfx (i + 1)) =
        some { Name := dirPfx (i + 1), Path := absDir }) ∧
    (∀ i dir, directories[i]? = some dir → abs i dir = none →
      mapLookup (all abs directories) (dirPfx (i + 1)) = none) ∧
    (∀ i j, dirPfx (i + 1) = dirPfx (j + 1) → i = j) ∧
    ((∀ i dir, directories[i]? = some dir → (abs i dir).isSome = true) →
      (all abs directories).length = directories.length ∧
      ∀ i, i < directories.length → dirPfx (i + 1) ∈ mapKeys (all abs directories)) := by
  rw [all_eq_allEntries]
  have hnd := allEntries_nodup abs directories 0
  have hkeys : ∀ key, key ∈ mapKeys (allEntries abs 0 directories) ↔
      ∃ i dir, directories[i]? = some dir ∧ (abs i dir).isSome = true ∧
        key = dirPfx (i + 1) := by
    intro key
    constructor
    · intro h
      obtain ⟨e, he, hk⟩ := List.mem_map.1 h
      obtain ⟨j, dir, a, h1, h2, h3⟩ := (allEntries_mem abs directories 0 e).1 he
      simp only [Nat.zero_add] at h2 h3
      exact ⟨j, dir, h1, by simp [h2], by rw [← hk, h3]⟩
    · rintro ⟨i, dir, h1, h2, h3⟩
      obtain ⟨a, ha⟩ := Option.isSome_iff_exists.1 h2
      have hm := (allEntries_mem abs directories 0
        (dirPfx (i + 1), { Name := dirPfx (i + 1), Path := a })).2
        ⟨i, dir, a, h1, by simpa using ha, by simp⟩
      rw [h3]
      exact mem_mapKeys_of_mem _ _ hm
  have hinj : ∀ i j, dirPfx (i + 1) = dirPfx (j + 1) → i = j := by
    intro i j h
    have := dirPfx_injective h
    omega
  refine ⟨allEntries_length abs directories 0, hnd, hkeys, ?_, ?_, hinj, ?_⟩
  · intro i dir a h1 h2
    apply mapLookup_of_mem _ _ _ hnd
    exact (allEntries_mem abs directories 0 _).2 ⟨i, dir, a, h1, by simpa using h2, by simp⟩
  · intro i dir h1 h2
    apply mapLookup_of_not_mem
    intro hk
    obtain ⟨j, d, hj1, hj2, hj3⟩ := (hkeys _).1 hk
    have hij := hinj _ _ hj3
    subst hij
    rw [h1] at hj1
    simp only [Option.some.injEq] at hj1
    subst hj1
    rw [h2] at hj2
    simp at hj2
  · intro hall
    have hmem : ∀ i, i < directories.length →
        dirPfx (i + 1) ∈ mapKeys (allEntries abs 0 directories) := by
      intro i hi
      exact (hkeys _).2 ⟨i, directories[i], List.getElem?_eq_getElem hi,
        hall i _ (List.getElem?_eq_getElem hi), rfl⟩
    refine ⟨le_antisymm (allEntries_length abs directories 0) ?_, hmem⟩
    have hnd2 : ((List.range directories.length).map (fun i => dirPfx (i + 1))).Nodup := by
      apply List.Nodup.map _ (List.nodup_range _)
      intro a b hab
      exact hinj a b hab
    have hsub : (List.range directories.length).map (fun i => dirPfx (i + 1)) ⊆
        mapKeys (allEntries abs 0 directories) := by
      intro key hk
      obtain ⟨i, hi, rfl⟩ := List.mem_map.1 hk
      exact hmem i (List.mem_range.1 hi)
    have := (List.subperm_of_subset hnd2 hsub).length_le
    simpa [mapKeys] using this

/-- C5: the `/` handler of `all` never answers not-found, whatever the registry, the
visiting order and the path; for a path other than `/` that no visited entry matches
it returns without writing a response (status 200 with an empty body), as it does for
the roots `["."]` and the path `/nope`. -/
theorem allHandler_never_notFound :
    (∀ (folderURLs order : GoMap Folder) (path : String),
      allHandler folderURLs order path ≠ Response.notFound) ∧
    (∀ (folderURLs order : GoMap Folder) (path : String), path ≠ "/" →
      (∀ e ∈ order, path ≠ e.2.Name ∧ path ≠ trimSuffix e.2.Name "/") →
      allHandler folderURLs order path = Response.nothingWritten) ∧
    allHandler (all (fun _ _ => some "/srv") ["."]) (all (fun _ _ => some "/srv") ["."])
      "/nope" = Response.nothingWritten := by
  refine ⟨?_, ?_, by decide⟩
  · intro folderURLs order path
    have hscan : ∀ l : List (String × Folder), allScan path l ≠ Response.notFound := by
      intro l
      induction l with
      | nil => simp [allScan]
      | cons e rest ih =>
        obtain ⟨k, f⟩ := e
        simp only [allScan]
        split
        · simp
        · split
          · simp
          · exact ih
    simp only [allHandler]
    split
    · simp
    · exact hscan order
  · intro folderURLs order path hroot hno
    simp only [allHandler, hroot, if_false]
    induction order with
    | nil => rfl
    | cons e rest ih =>
      obtain ⟨k, f⟩ := e
      obtain ⟨h1, h2⟩ := hno (k, f) (List.mem_cons_self _ _)
      simp only at h1 h2
      simp only [allScan, h1, h2, if_false]
      exact ih (fun e he => hno e (List.mem_cons_of_mem _ he))

/-! ## Routing -/

theorem allScan_redirect (n : Nat) : ∀ (order : List (String × Folder)),
    (∀ e ∈ order, ∃ c, e.2.Name = dirPfx c) → (∃ e ∈ order, e.2.Name = dirPfx n) →
    allScan (trimSuffix (dirPfx n) "/") order = Response.redirect (dirPfx n) 301 := by
  intro order
  induction order with
  | nil => intro _ h; simp at h
  | cons e rest ih =>
    intro hall hex
    obtain ⟨k, f⟩ := e
    obtain ⟨c, hc⟩ := hall (k, f) (List.mem_cons_self _ _)
    simp only at hc
    simp only [allScan, hc, trimmed_ne_dirPfx, if_false]
    by_cases hn : n = c
    · subst hn
      simp [statusMovedPermanently]
    · have hne : ¬ trimSuffix (dirPfx n) "/" = trimSuffix (dirPfx c) "/" :=
        fun h => hn (trimmed_injective h)
      simp only [hne, if_false]
      apply ih (fun e he => hall e (List.mem_cons_of_mem _ he))
      obtain ⟨e, he, hen⟩ := hex
      rcases List.mem_cons.1 he with he | he
      · subst he
        simp only at hen
        rw [hc] at hen
        exact absurd (dirPfx_injective hen).symm hn
      · exact ⟨e, he, hen⟩

theorem videosScanDirs_redirect (n : Nat) : ∀ (order : List (String × List Video)),
    (∀ e ∈ order, ∃ c, e.1 = dirPfx c) → (∃ e ∈ order, e.1 = dirPfx n) →
    videosScanDirs (trimSuffix (dirPfx n) "/") order =
      some (Response.redirect (dirPfx n) 301) := by
  intro order
  induction order with
  | nil => intro _ h; simp at h
  | cons e rest ih =>
    intro hall hex
    obtain ⟨k, vids⟩ := e
    obtain ⟨c, hc⟩ := hall (k, vids) (List.mem_cons_self _ _)
    simp only at hc
    simp only [videosScanDirs, hc, trimmed_ne_dirPfx, if_false]
    by_cases hn : n = c
    · subst hn
      simp [statusMovedPermanently]
    · have hne : ¬ trimSuffix (dirPfx n) "/" = trimSuffix (dirPfx c) "/" :=
        fun h => hn (trimmed_injective h)
      simp only [hne, if_false]
      apply ih (fun e he => hall e (List.mem_cons_of_mem _ he))
      obtain ⟨e, he, hen⟩ := hex
      rcases List.mem_cons.1 he with he | he
      · subst he
        simp only at hen
        rw [hc] at hen
        exact absurd (dirPfx_injective hen).symm hn
      · exact ⟨e, he, hen⟩

theorem videosScanDirs_none (path : String) : ∀ (order : List (String × List Video)),
    (∀ e ∈ order, path ≠ e.1 ∧ path ≠ trimSuffix e.1 "/") →
    videosScanDirs path order = none := by
  intro order
  induction order with
  | nil => intro _; rfl
  | cons e rest ih =>
    intro h
    obtain ⟨k, vids⟩ := e
    obtain ⟨h1, h2⟩ := h (k, vids) (List.mem_cons_self _ _)
    simp only at h1 h2
    simp only [videosScanDirs, h1, h2, if_false]
    exact ih (fun e he => h e (List.mem_cons_of_mem _ he))

theorem videosScanList_spec (path : String) : ∀ (vids : List Video),
    (videosScanList path vids = none ∧ ∀ v ∈ vids, v.Path ≠ path) ∨
    ∃ v ∈ vids, v.Path = path ∧
      videosScanList path vids = some (Response.serveFile v.FilePath) := by
  intro vids
  induction vids with
  | nil => left; simp [videosScanList]
  | cons v rest ih =>
    by_cases hv : path = v.Path
    · right
      exact ⟨v, List.mem_cons_self _ _, hv.symm, by simp [videosScanList, hv]⟩
    · simp only [videosScanList, hv, if_false]
      rcases ih with ⟨h1, h2⟩ | ⟨w, hw, h1, h2⟩
      · left
        refine ⟨h1, ?_⟩
        intro w hw
        rcases List.mem_cons.1 hw with hw | hw
        · rw [hw]; exact fun h => hv h.symm
        · exact h2 w hw
      · right
        exact ⟨w, List.mem_cons_of_mem _ hw, h1, h2⟩

theorem videosScanFiles_spec (path : String) : ∀ (order : List (String × List Video)),
    (videosScanFiles path order = none ∧ ∀ e ∈ order, ∀ v ∈ e.2, v.Path ≠ path) ∨
    ∃ e ∈ order, ∃ v ∈ e.2, v.Path = path ∧
      videosScanFiles path order = some (Response.serveFile v.FilePath) := by
  intro order
  induction order with
  | nil => left; simp [videosScanFiles]
  | cons e rest ih =>
    obtain ⟨k, vids⟩ := e
    rcases videosScanList_spec path vids with ⟨h1, h2⟩ | ⟨w, hw, h1, h2⟩
    · simp only [videosScanFiles, h1]
      rcases ih with ⟨h3, h4⟩ | ⟨e, he, w, hw, h3, h4⟩
      · left
        refine ⟨h3, ?_⟩
        intro e he
        rcases List.mem_cons.1 he with he | he
        · rw [he]; exact h2
        · exact h4 e he
      · right
        exact ⟨e, List.mem_cons_of_mem _ he, w, hw, h3, h4⟩
    · right
      exact ⟨(k, vids), List.mem_cons_self _ _, w, hw, h1, by simp [videosScanFiles, h2]⟩

theorem wf_path_unique (reg : GoMap (List Video)) (hwf : VideosWF reg)
    (e e' : String × List Video) (v v' : Video) (he : e ∈ reg) (he' : e' ∈ reg)
    (hv : v ∈ e.2) (hv' : v' ∈ e'.2) (hpath : v'.Path = v.Path) : e' = e ∧ v' = v := by
  obtain ⟨hnd, hall⟩ := hwf
  obtain ⟨c, hc, _, hp⟩ := hall e he
  obtain ⟨c', hc', _, hp'⟩ := hall e' he'
  obtain ⟨idx, hidx⟩ := List.mem_iff_getElem?.1 hv
  obtain ⟨idx', hidx'⟩ := List.mem_iff_getElem?.1 hv'
  have h1 := hp idx v hidx
  have h2 := hp' idx' v' hidx'
  rw [h1, h2] at hpath
  obtain ⟨hcc, hii⟩ := aliasPath_injective hpath
  have hkey : e'.1 = e.1 := by rw [hc, hc', hcc]
  have hl := mapLookup_of_mem reg e.1 e.2 hnd he
  have hl' := mapLookup_of_mem reg e'.1 e'.2 hnd he'
  rw [hkey, hl] at hl'
  simp only [Option.some.injEq] at hl'
  have hidx_eq : idx' = idx := by omega
  refine ⟨Prod.ext hkey hl'.symm, ?_⟩
  rw [← hl', hidx_eq, hidx] at hidx'
  simp only [Option.some.injEq] at hidx'
  exact hidx'.symm

/-! ## Claims about routing -/

/-- C3: for every entry `v` of the registry built by `videos`, stored under `key`, a
request whose path is `v.Path` is answered by `http.ServeFile` on `v.FilePath`,
whatever the orders in which the two range loops visit the map; `key` is a prefix
`/dir<N>/` and `v.Path` is `/dir<N>/video<K+1>` for the position `K` of `v`; no other
entry of the registry has the same alias path; and the alias path is neither a key nor
a key without its trailing slash. -/
theorem videos_alias_routing (env : Env) (directories extensions : List String)
    (key : String) (vids : List Video) (v : Video)
    (order1 order2 : List (String × List Video))
    (hentry : (key, vids) ∈ videos env directories extensions) (hv : v ∈ vids)
    (h1 : order1.Perm (videos env directories extensions))
    (h2 : order2.Perm (videos env directories extensions)) :
    videosHandler (videos env directories extensions) order1 order2 v.Path =
      Response.serveFile v.FilePath ∧
    (∃ N K, key = dirPfx N ∧ vids[K]? = some v ∧
      v.Path = dirPfx N ++ ("video" ++ sprintD (K + 1))) ∧
    (∀ key' vids' v', (key', vids') ∈ videos env directories extensions → v' ∈ vids' →
      v'.Path = v.Path → key' = key ∧ v' = v) ∧
    (∀ key', key' ∈ mapKeys (videos env directories extensions) →
      v.Path ≠ key' ∧ v.Path ≠ trimSuffix key' "/") := by
  have hwf := videos_wf env directories extensions
  obtain ⟨N, hN, _, hp⟩ := hwf.2 (key, vids) hentry
  simp only at hN hp
  obtain ⟨K, hK⟩ := List.mem_iff_getElem?.1 hv
  have hpath := hp K v hK
  have huniq : ∀ key' vids' v', (key', vids') ∈ videos env directories extensions →
      v' ∈ vids' → v'.Path = v.Path → key' = key ∧ v' = v := by
    intro key' vids' v' he' hv' hpp
    obtain ⟨h3, h4⟩ := wf_path_unique _ hwf (key, vids) (key', vids') v v' hentry he' hv hv' hpp
    exact ⟨congrArg Prod.fst h3, h4⟩
  have hkeys : ∀ key', key' ∈ mapKeys (videos env directories extensions) →
      v.Path ≠ key' ∧ v.Path ≠ trimSuffix key' "/" := by
    intro key' hk
    obtain ⟨e, he, hkey⟩ := List.mem_map.1 hk
    obtain ⟨c, hc, _, _⟩ := hwf.2 e he
    rw [← hkey, hc, hpath]
    exact ⟨aliasPath_ne_dirPfx _ _ _, aliasPath_ne_trimmed _ _ _⟩
  refine ⟨?_, ⟨N, K, hN, hK, hpath⟩, huniq, hkeys⟩
  have hroot : ¬ v.Path = "/" := by rw [hpath]; exact aliasPath_ne_root _ _
  have hdirs : videosScanDirs v.Path order1 = none := by
    apply videosScanDirs_none
    intro e he
    exact hkeys e.1 (mem_mapKeys_of_mem _ e (h1.subset he))
  simp only [videosHandler, hroot, if_false, hdirs]
  rcases videosScanFiles_spec v.Path order2 with ⟨_, h4⟩ | ⟨e, he, w, hw, h3, h4⟩
  · exact absurd rfl (h4 (key, vids) (h2.symm.subset hentry) v hv)
  · rw [h4]
    have := (huniq e.1 e.2 w (h2.subset he) hw h3).2
    rw [this]

/-- Witness of C3: in the sample environment, with the roots `e`, `m`, the request
`/dir2/video2` is answered with the file `/srv/m/sub/B.MKV`, the second loop visiting
the map in reverse. -/
theorem videos_alias_routing_witness :
    ("/dir2/", [Video.mk "a.mp4" "/dir2/video1" "/srv/m/a.mp4",
        Video.mk "B.MKV" "/dir2/video2" "/srv/m/sub/B.MKV"]) ∈
      videos sampleEnv ["e", "m"] defaultExtensions ∧
    videosHandler (videos sampleEnv ["e", "m"] defaultExtensions)
        (videos sampleEnv ["e", "m"] defaultExtensions)
        (videos sampleEnv ["e", "m"] defaultExtensions).reverse "/dir2/video2" =
      Response.serveFile "/srv/m/sub/B.MKV" :=
  ⟨by decide,
    (videos_alias_routing sampleEnv ["e", "m"] defaultExtensions "/dir2/"
      [Video.mk "a.mp4" "/dir2/video1" "/srv/m/a.mp4",
        Video.mk "B.MKV" "/dir2/video2" "/srv/m/sub/B.MKV"]
      (Video.mk "B.MKV" "/dir2/video2" "/srv/m/sub/B.MKV")
      (videos sampleEnv ["e", "m"] defaultExtensions)
      (videos sampleEnv ["e", "m"] defaultExtensions).reverse
      (by decide) (by decide) (List.Perm.refl _) (List.reverse_perm _)).1⟩

/-- C4: for the registry built by `all` and for the registry built by `videos`, and
every key `p` of it, the `/` handler answers the path `p` without its trailing slash
with a redirect to `p` with status 301, whatever the order in which the range loops
visit the map. -/
theorem trailing_slash_redirect (abs : Nat → String → Option String) (env : Env)
    (directories extensions : List String) (p : String) :
    (∀ order, p ∈ mapKeys (all abs directories) → order.Perm (all abs directories) →
      allHandler (all abs directories) order (trimSuffix p "/") =
        Response.redirect p 301) ∧
    (∀ order1 order2, p ∈ mapKeys (videos env directories extensions) →
      order1.Perm (videos env directories extensions) →
      order2.Perm (videos env directories extensions) →
      videosHandler (videos env directories extensions) order1 order2 (trimSuffix p "/") =
        Response.redirect p 301) := by
  constructor
  · intro order hp hperm
    obtain ⟨_, hwf⟩ := all_wf abs directories
    obtain ⟨e, he, hkey⟩ := List.mem_map.1 hp
    obtain ⟨n, hn1, hn2⟩ := hwf e he
    rw [← hkey, hn1]
    simp only [allHandler, trimmed_ne_root, if_false]
    apply allScan_redirect
    · intro e' he'
      obtain ⟨c, _, hc⟩ := hwf e' (hperm.subset he')
      exact ⟨c, hc⟩
    · exact ⟨e, hperm.symm.subset he, hn2⟩
  · intro order1 order2 hp hperm1 _
    obtain ⟨_, hwf⟩ := videos_wf env directories extensions
    obtain ⟨e, he, hkey⟩ := List.mem_map.1 hp
    obtain ⟨n, hn1, _, _⟩ := hwf e he
    rw [← hkey, hn1]
    simp only [videosHandler, trimmed_ne_root, if_false]
    rw [videosScanDirs_redirect n order1]
    · intro e' he'
      obtain ⟨c, hc, _, _⟩ := hwf e' (hperm1.subset he')
      exact ⟨c, hc⟩
    · exact ⟨e, hperm1.symm.subset he, hn1⟩

/-- Witness of C4: `/dir2` is redirected to `/dir2/` in both modes, the map being
visited in reverse. -/
theorem trailing_slash_redirect_witness :
    "/dir2/" ∈ mapKeys (all sampleEnv.abs ["e", "m"]) ∧
    "/dir2/" ∈ mapKeys (videos sampleEnv ["e", "m"] defaultExtensions) ∧
    allHandler (all sampleEnv.abs ["e", "m"]) (all sampleEnv.abs ["e", "m"]).reverse
      (trimSuffix "/dir2/" "/") = Response.redirect "/dir2/" 301 ∧
    videosHandler (videos sampleEnv ["e", "m"] defaultExtensions)
      (videos sampleEnv ["e", "m"] defaultExtensions).reverse
      (videos sampleEnv ["e", "m"] defaultExtensions) (trimSuffix "/dir2/" "/") =
        Response.redirect "/dir2/" 301 :=
  ⟨by decide, by decide,
    (trailing_slash_redirect sampleEnv.abs sampleEnv ["e", "m"] defaultExtensions "/dir2/").1
      _ (by decide) (List.reverse_perm _),
    (trailing_slash_redirect sampleEnv.abs sampleEnv ["e", "m"] defaultExtensions "/dir2/").2
      _ _ (by decide) (List.reverse_perm _) (List.Perm.refl _)⟩

/-! ## Claims about the discovery document -/

theorem foldl_append_singleton {α β : Type} (f : α → β) : ∀ (l : List α) (init : List β),
    l.foldl (fun acc x => acc ++ [f x]) init = init ++ l.map f := by
  intro l
  induction l with
  | nil => intro init; simp
  | cons x rest ih => intro init; simp [ih]

theorem publicVideosOf_eq_map (vids : List Video) :
    publicVideosOf vids = vids.map (fun v => PublicVideo.mk v.Name v.Path) := by
  simp [publicVideosOf, foldl_append_singleton (fun v : Video => PublicVideo.mk v.Name v.Path)]

theorem publicFoldersOf_eq_map (order : List (String × List Video)) :
    publicFoldersOf order =
      order.map (fun e => PublicVideoFolder.mk e.1
        (e.2.map (fun v => PublicVideo.mk v.Name v.Path))) := by
  simp [publicFoldersOf, publicVideosOf_eq_map, foldl_append_singleton
    (fun e : String × List Video => PublicVideoFolder.mk e.1
      (e.2.map (fun v => PublicVideo.mk v.Name v.Path)))]

/-- C7, as stated, fails: for the registry with the single prefix `/dir1/` and the
single entry `a.mp4` the body written by the `/videourls` handler is not the bare JSON
text of the claim. -/
theorem videourls_body_not_bare :
    videoURLsHandler [("/dir1/", [Video.mk "a.mp4" "/dir1/video1" "/srv/a.mp4"])] ≠
      Response.json "application/json"
        "\x7b\"folders\":[\x7b\"name\":\"/dir1/\",\"videos\":[\x7b\"name\":\"a.mp4\",\"path\":\"/dir1/video1\"\x7d]\x7d]\x7d" := by
  decide

/-- C7, amended: for the registry with the single prefix `/dir1/` and the single entry
`a.mp4` the body is the JSON text of the claim followed by one newline character; for
every registry and every order in which the range visits it, the body is the object
with the one key `folders`, followed by a newline, whose array has one element per
visited prefix, each with `name` the prefix and `videos` the entries of the prefix in
their order, each entry written with `name` and `path` only. -/
theorem videourls_document :
    videoURLsHandler [("/dir1/", [Video.mk "a.mp4" "/dir1/video1" "/srv/a.mp4"])] =
      Response.json "application/json"
        "\x7b\"folders\":[\x7b\"name\":\"/dir1/\",\"videos\":[\x7b\"name\":\"a.mp4\",\"path\":\"/dir1/video1\"\x7d]\x7d]\x7d\n" ∧
    ∀ order : List (String × List Video),
      (publicFoldersOf order).length = order.length ∧
      videoURLsHandler order = Response.json "application/json"
        ("\x7b\"folders\":[" ++ ",".intercalate (order.map (fun e =>
          "\x7b\"name\":" ++ jsonString e.1 ++ ",\"videos\":[" ++
            ",".intercalate (e.2.map (fun v =>
              "\x7b\"name\":" ++ jsonString v.Name ++ ",\"path\":" ++ jsonString v.Path ++
                "\x7d")) ++ "]\x7d")) ++ "]\x7d\n") := by
  refine ⟨by decide, ?_⟩
  intro order
  constructor
  · simp [publicFoldersOf_eq_map]
  · have e1 : ("\x7b\"folders\":[" : String) = "\x7b\"folders\":" ++ "[" := by decide
    have e2 : ("]\x7d\n" : String) = "]" ++ ("\x7d" ++ "\n") := by decide
    have e3 : (",\"videos\":[" : String) = ",\"videos\":" ++ "[" := by decide
    have e4 : ("]\x7d" : String) = "]" ++ "\x7d" := by decide
    rw [e1, e2, e3, e4]
    simp only [videoURLsHandler, encoderEncode, jsonVideoURLListResponse, jsonArray,
      publicFoldersOf_eq_map, List.map_map, String.append_assoc, Function.comp_def,
      jsonPublicVideoFolder, jsonPublicVideo]

/-! ## Claims about isVideo -/

/-- C6: `isVideo` answers true exactly when some element of the extension list is a
suffix of the lower-cased file name; it answers false for the empty list;
`Movie.MP4` matches `.mp4` and `movie.mp4x` does not. -/
theorem isVideo_iff_suffix :
    (∀ (lower : Char → Char) (filename : String) (extensions : List String),
      isVideo lower filename extensions = true ↔
        ∃ ext ∈ extensions, ext.data <:+ (toLower lower filename).data) ∧
    (∀ (lower : Char → Char) (filename : String), isVideo lower filename [] = false) ∧
    isVideo asciiLower "Movie.MP4" [".mp4"] = true ∧
    isVideo asciiLower "movie.mp4x" [".mp4"] = false := by
  refine ⟨?_, fun _ _ => rfl, by decide, by decide⟩
  intro lower filename extensions
  induction extensions with
  | nil => simp [isVideo]
  | cons ext rest ih =>
    simp only [isVideo, List.mem_cons, exists_eq_or_imp]
    by_cases h : hasSuffix (toLower lower filename) ext = true
    · have h2 : ext.data <:+ (toLower lower filename).data := by
        simpa [hasSuffix] using h
      simp [h, h2]
    · have h2 : ¬ ext.data <:+ (toLower lower filename).data := by
        simpa [hasSuffix] using h
      simp [h, h2, ih]

/-- C10: an extension is compared as it was typed. With the extension `.MP4` neither
`movie.mp4` nor `Movie.MP4` is a video, although both are with the lower-cased
extension `.mp4`; and `main` appends the operator's `.FLV` unchanged to the defaults,
after which neither `clip.flv` nor `CLIP.FLV` is a video. -/
theorem isVideo_upper_extension :
    isVideo asciiLower "movie.mp4" [".MP4"] = false ∧
    isVideo asciiLower "Movie.MP4" [".MP4"] = false ∧
    isVideo asciiLower "movie.mp4" [toLower asciiLower ".MP4"] = true ∧
    isVideo asciiLower "Movie.MP4" [toLower asciiLower ".MP4"] = true ∧
    videoExtensions [".FLV"] = [".mp4", ".avi", ".mkv", ".mov", ".webm", ".FLV"] ∧
    isVideo asciiLower "clip.flv" (videoExtensions [".FLV"]) = false ∧
    isVideo asciiLower "CLIP.FLV" (videoExtensions [".FLV"]) = false ∧
    isVideo asciiLower "clip.flv" (videoExtensions [toLower asciiLower ".FLV"]) = true := by
  decide

end FileServer
